import Mathlib

/-!
Verification development for the DynamicVLN repository.

Part 1 embeds the offline edge-blocking path synthesizer
(`Inpainting/block_edge.py`): an undirected graph is a list of edges
(as built by `load_nav_graphs` from the connectivity files), and the
per-combination processing loop (connectivity flag, reduced-path walk,
detailed-path substitution, 15-node cap, diagnostics) is translated
function by function.  `nx.shortest_path` without a weight argument is
unweighted breadth-first search, embedded as `shortestPath`;
`nx.has_path` is reachability, embedded as `hasPath`.  Python
exceptions (`nx.remove_edge` on a missing edge, `NetworkXNoPath`,
`list.index` misses) are modelled by `Option`, `none` meaning the
script dies with an exception.

Part 2 embeds the online navigation agent
(`VLN-DUET/map_nav_src_dyvln/r2r/agent.py`): the three teacher-policy
variants, the pose/trajectory bookkeeping of `make_equiv_action`, the
`scanvp_cands` cache, the surrogate-node masking of
`_nav_gmap_variable_search` / `search_rollout`, and the bounded search
fallback loop.  Distances are rationals; the unreachable sentinel is
`1e7`.
-/

namespace DynamicVLN

/-- The unreachable-distance sentinel: any distance `≥ 1e7` means
"no known path" (cf. FloydGraph's default of 95959595 and the
`>= 1e7` tests in `agent.py`). -/
def sentinel : ℚ := 10000000

namespace BlockEdge

/-- An undirected graph as a list of edges, as produced by
`load_nav_graphs` (`G.add_edge(u, v)`); an unordered pair is stored in
either orientation.  Edge weights are irrelevant to the synthesizer:
`nx.shortest_path` is called without a weight argument. -/
abbrev Graph (V : Type) := List (V × V)

variable {V : Type} [DecidableEq V]

/-- `G.neighbors(v)`: the other endpoint of every edge at `v`. -/
def nbrs (g : Graph V) (v : V) : List V :=
  g.filterMap (fun e =>
    if e.1 = v then some e.2 else if e.2 = v then some e.1 else none)

/-- Whether the undirected edge `(a, b)` is present. -/
def hasEdge (g : Graph V) (a b : V) : Bool :=
  g.any (fun e => decide ((e.1 = a ∧ e.2 = b) ∨ (e.1 = b ∧ e.2 = a)))

/-- `G.remove_edge(a, b)`: networkx raises `NetworkXError` when the
edge is absent, hence the `Option`. -/
def removeEdge (g : Graph V) (a b : V) : Option (Graph V) :=
  if hasEdge g a b then
    some (g.filter (fun e =>
      !(decide ((e.1 = a ∧ e.2 = b) ∨ (e.1 = b ∧ e.2 = a)))))
  else none

/-- Remove a list of edges in order (the working copy of the graph
after the whole combination has been removed). -/
def removeEdges (g : Graph V) : List (V × V) → Option (Graph V)
  | [] => some g
  | e :: rest => do removeEdges (← removeEdge g e.1 e.2) rest

/-- All vertices incident to an edge. -/
def nodes (g : Graph V) : List V :=
  (g.flatMap (fun e => [e.1, e.2])).dedup

/-- One round of neighbourhood expansion of a vertex set. -/
def reachStep (g : Graph V) (acc : List V) : List V :=
  acc ++ ((acc.flatMap (nbrs g)).dedup).filter (fun u => decide (u ∉ acc))

/-- Iterate `reachStep` to a fixpoint (fuel-bounded; the fuel
`(nodes g).length + 1` always suffices, see `reachFix_closed`). -/
def reachFix (g : Graph V) : Nat → List V → List V
  | 0, acc => acc
  | n + 1, acc =>
      let acc2 := reachStep g acc
      if acc2.length = acc.length then acc else reachFix g n acc2

/-- `nx.has_path(G, s, t)`: whether `t` is reachable from `s`. -/
def hasPath (g : Graph V) (s t : V) : Bool :=
  decide (t ∈ reachFix g ((nodes g).length + 1) [s])

/-- Breadth-first search: queue entries are paths stored in reverse
(head = frontier vertex); vertices are marked visited on enqueue. -/
def bfsAux (g : Graph V) (t : V) :
    Nat → List (List V) → List V → Option (List V)
  | 0, _, _ => none
  | _ + 1, [], _ => none
  | fuel + 1, p :: queue, visited =>
      match p with
      | [] => none
      | v :: _ =>
          if v = t then some p.reverse
          else
            let ns := ((nbrs g v).dedup).filter (fun u => decide (u ∉ visited))
            bfsAux g t fuel (queue ++ ns.map (fun u => u :: p)) (visited ++ ns)

/-- `nx.shortest_path(G, s, t)` with no weight argument: a
fewest-edges path from `s` to `t` (ends included), `none` when the
vertices are disconnected (`NetworkXNoPath`). -/
def shortestPath (g : Graph V) (s t : V) : Option (List V) :=
  bfsAux g t (2 * g.length + 2) [[s]] [s]

/-- The `flag` loop of `block_edge.py` (lines 83-88): remove the
combination's edges one at a time from the working graph, testing
after each removal whether the removed edge's endpoints are still
connected; the final flag is the conjunction of the tests.  Returns
the fully reduced graph together with the flag. -/
def flagLoop (g : Graph V) : List (V × V) → Option (Graph V × Bool)
  | [] => some (g, true)
  | e :: rest => do
      let g2 ← removeEdge g e.1 e.2
      let r ← flagLoop g2 rest
      return (r.1, hasPath g2 e.1 e.2 && r.2)

/-- State of the reduced-path walk (lines 90-118): the candidate
frontier `cand_vps` (a set, represented by a list queried only for
membership), the reduced path `new_path` and the deduplicated-against-
`new_path` original path `original_path`. -/
structure WalkState (V : Type) where
  candVps : List V
  newPath : List V
  originalPath : List V
deriving Repr, DecidableEq

/-- One iteration of `for vp in path:` (lines 95-118).  `pLast` is
`path[-1]` (`none` models the `IndexError` on an empty path, which is
unreachable because the loop body then never runs). -/
def walkStep (g : Graph V) (pLast : Option V) (st : WalkState V) (vp : V) :
    Option (WalkState V) :=
  if vp ∈ st.newPath then some st
  else
    let st1 : WalkState V := { st with originalPath := st.originalPath ++ [vp] }
    if st1.newPath.isEmpty || decide (vp ∈ st1.candVps) then
      some { st1 with
              newPath := st1.newPath ++ [vp],
              candVps := st1.candVps ++ vp :: nbrs g vp }
    else
      match st1.newPath.getLast? with
      | none => none
      | some last =>
          match shortestPath g last vp with
          | none => none
          | some sp =>
              let bypass := sp.drop 1
              let realBypass :=
                bypass.reverse.takeWhile (fun v => decide (v ∉ st1.newPath))
              match pLast with
              | none => none
              | some pl =>
                  let grow := realBypass.reverse.takeWhile (fun v => decide (v ≠ pl))
                  some { st1 with
                          candVps := st1.candVps ++
                            grow.flatMap (fun v => v :: nbrs g v) }

/-- The whole `for vp in path:` walk. -/
def walkLoop (g : Graph V) (pLast : Option V) :
    WalkState V → List V → Option (WalkState V)
  | st, [] => some st
  | st, vp :: rest => do
      let st2 ← walkStep g pLast st vp
      walkLoop g pLast st2 rest

/-- The detailed-path substitution loop (lines 120-125): for each
blocked edge, splice the residual-graph shortest path over the two
positions starting at `path.index(edge[0]) + adjustment`.
`adjustment` is carried as an integer; python's negative-index slicing
is not reproduced because `adjustment` stays nonnegative whenever
every bypass has at least two vertices. -/
def detailedLoop (g : Graph V) (path : List V) :
    List (V × V) → List V → Int → Option (List V)
  | [], detailed, _ => some detailed
  | e :: rest, detailed, adjustment =>
      match shortestPath g e.1 e.2 with
      | none => none
      | some bypass =>
          match path.findIdx? (fun v => v == e.1) with
          | none => none
          | some i =>
              let edgeIdx : Int := (i : Int) + adjustment
              let d2 := detailed.take edgeIdx.toNat ++ bypass ++
                        detailed.drop (edgeIdx.toNat + 2)
              detailedLoop g path rest d2 (adjustment + (bypass.length : Int) - 2)

/-- What one accepted-or-rejected combination contributes: the tuple
appended to `block_list[scan][path_id]` (if any), the value appended
to `modified_lengths` (if any) and the increment of `duplicate_num`. -/
structure CombOutcome (V : Type) where
  record : Option (List (V × V) × List V × List V × List V)
  modifiedLengthsAdd : List Nat
  duplicateAdd : Nat
deriving Repr, DecidableEq

/-- Processing of a single combination `comb` for reference path
`path` on the per-scan graph `g` (lines 82-137): remove the edges and
compute the flag; if accepted, run the reduced-path walk and the
detailed-path substitution on the reduced graph, and emit the record
unless the reduced path has more than 15 nodes. -/
def processComb (g : Graph V) (path : List V) (comb : List (V × V)) :
    Option (CombOutcome V) := do
  let fr ← flagLoop g comb
  let gRes := fr.1
  if fr.2 then
    let st ← walkLoop gRes path.getLast? ⟨[], [], []⟩ path
    let detailed ← detailedLoop gRes path comb path 0
    if st.newPath.length ≤ 15 then
      return { record := some (comb, st.newPath, st.originalPath, detailed),
               modifiedLengthsAdd := [detailed.length],
               duplicateAdd :=
                 if st.newPath.dedup.length ≠ st.newPath.length then 1 else 0 }
    else
      return { record := none, modifiedLengthsAdd := [], duplicateAdd := 0 }
  else
    return { record := none, modifiedLengthsAdd := [], duplicateAdd := 0 }

/-- The consecutive edges of a reference path (line 80). -/
def pathEdges (path : List V) : List (V × V) :=
  path.zip path.tail

/-- The reduced ("visible") path a combination produces, when the
combination passes the connectivity flag and the walk succeeds. -/
def reducedPath (g : Graph V) (path : List V) (comb : List (V × V)) :
    Option (List V) := do
  let fr ← flagLoop g comb
  if fr.2 then
    let st ← walkLoop fr.1 path.getLast? ⟨[], [], []⟩ path
    pure st.newPath
  else none

/-! ### Reachability: the mathematical meaning of `nx.has_path` -/

/-- Two vertices joined by an edge of `g` (in either orientation). -/
def Adj (g : Graph V) (a b : V) : Prop :=
  ∃ e ∈ g, (e.1 = a ∧ e.2 = b) ∨ (e.1 = b ∧ e.2 = a)

/-- Connectivity by a walk through edges of `g`. -/
inductive Reachable (g : Graph V) : V → V → Prop
  | refl (v : V) : Reachable g v v
  | tail {a b c : V} : Reachable g a b → Adj g b c → Reachable g a c

theorem adj_symm {g : Graph V} {a b : V} (h : Adj g a b) : Adj g b a := by
  obtain ⟨e, he, h | h⟩ := h
  · exact ⟨e, he, Or.inr ⟨h.1, h.2⟩⟩
  · exact ⟨e, he, Or.inl ⟨h.1, h.2⟩⟩

theorem reachable_head {g : Graph V} {a b c : V}
    (h : Adj g a b) (r : Reachable g b c) : Reachable g a c := by
  induction r with
  | refl => exact .tail (.refl a) h
  | tail _ h2 ih => exact .tail ih h2

theorem reachable_symm {g : Graph V} {a b : V}
    (r : Reachable g a b) : Reachable g b a := by
  induction r with
  | refl => exact .refl _
  | tail _ h ih => exact reachable_head (adj_symm h) ih

theorem reachable_trans {g : Graph V} {a b c : V}
    (r1 : Reachable g a b) (r2 : Reachable g b c) : Reachable g a c := by
  induction r2 with
  | refl => exact r1
  | tail _ h ih => exact .tail ih h

theorem mem_nbrs {g : Graph V} {a b : V} : b ∈ nbrs g a ↔ Adj g a b := by
  simp only [nbrs, List.mem_filterMap, Adj]
  constructor
  · rintro ⟨e, he, hfe⟩
    refine ⟨e, he, ?_⟩
    by_cases h1 : e.1 = a
    · simp [h1] at hfe; exact Or.inl ⟨h1, hfe⟩
    · by_cases h2 : e.2 = a
      · simp [h1, h2] at hfe; exact Or.inr ⟨hfe, h2⟩
      · simp [h1, h2] at hfe
  · rintro ⟨e, he, ⟨h1, h2⟩ | ⟨h1, h2⟩⟩
    · exact ⟨e, he, by simp [h1, h2]⟩
    · refine ⟨e, he, ?_⟩
      by_cases h0 : e.1 = a
      · rw [if_pos h0, h2, ← h0, h1]
      · rw [if_neg h0, if_pos h2, h1]

theorem nbrs_subset_nodes {g : Graph V} {a b : V} (h : b ∈ nbrs g a) :
    b ∈ nodes g := by
  rw [mem_nbrs] at h
  obtain ⟨e, he, h | h⟩ := h <;>
    · simp only [nodes, List.mem_dedup, List.mem_flatMap]
      exact ⟨e, he, by simp [← h.1, ← h.2]⟩

/-- Everything accumulated by `reachFix` is reachable from the seeds. -/
theorem reachFix_sound {g : Graph V} {s : V} :
    ∀ (fuel : Nat) (acc : List V), (∀ x ∈ acc, Reachable g s x) →
      ∀ x ∈ reachFix g fuel acc, Reachable g s x := by
  intro fuel
  induction fuel with
  | zero => intro acc hacc; exact hacc
  | succ n ih =>
      intro acc hacc x hx
      rw [reachFix] at hx
      by_cases hlen : (reachStep g acc).length = acc.length
      · simp only [hlen, if_pos rfl] at hx
        exact hacc x hx
      · simp only [if_neg hlen] at hx
        refine ih _ ?_ x hx
        intro y hy
        simp only [reachStep, List.mem_append, List.mem_filter,
          List.mem_dedup, List.mem_flatMap] at hy
        rcases hy with hy | ⟨⟨z, hz, hzy⟩, _⟩
        · exact hacc y hy
        · exact .tail (hacc z hz) (mem_nbrs.mp hzy)

/-- At a length fixpoint the accumulated set is closed under
neighbourhood. -/
theorem reachStep_fixpoint_closed {g : Graph V} {acc : List V}
    (h : (reachStep g acc).length = acc.length) :
    ∀ x ∈ acc, ∀ y ∈ nbrs g x, y ∈ acc := by
  intro x hx y hy
  have hsplit : (reachStep g acc).length =
      acc.length + (((acc.flatMap (nbrs g)).dedup).filter
        (fun u => decide (u ∉ acc))).length := by
    simp [reachStep]
  have hnil : ((acc.flatMap (nbrs g)).dedup).filter
      (fun u => decide (u ∉ acc)) = [] := by
    have h2 := h.symm.trans hsplit
    have : (((acc.flatMap (nbrs g)).dedup).filter
        (fun u => decide (u ∉ acc))).length = 0 := by omega
    exact List.length_eq_zero.mp this
  by_contra hyacc
  have hymem : y ∈ ((acc.flatMap (nbrs g)).dedup).filter
      (fun u => decide (u ∉ acc)) := by
    simp only [List.mem_filter, List.mem_dedup, List.mem_flatMap]
    exact ⟨⟨x, hx, hy⟩, by simpa using hyacc⟩
  rw [hnil] at hymem
  exact absurd hymem (List.not_mem_nil y)

/-- The seed set is contained in the result of `reachFix`. -/
theorem subset_reachFix {g : Graph V} :
    ∀ (fuel : Nat) (acc : List V), ∀ x ∈ acc, x ∈ reachFix g fuel acc := by
  intro fuel
  induction fuel with
  | zero => intro acc x hx; exact hx
  | succ n ih =>
      intro acc x hx
      rw [reachFix]
      by_cases hlen : (reachStep g acc).length = acc.length
      · simpa [hlen] using hx
      · simp only [if_neg hlen]
        exact ih _ x (by simp [reachStep, hx])

/-- With enough fuel, `reachFix` reaches a neighbourhood-closed set. -/
theorem reachFix_closed (g : Graph V) (s : V) :
    ∀ (fuel : Nat) (acc : List V), acc.Nodup → (∀ x ∈ acc, x ∈ s :: nodes g) →
      (nodes g).length + 2 ≤ acc.length + fuel →
      ∀ x ∈ reachFix g fuel acc, ∀ y ∈ nbrs g x, y ∈ reachFix g fuel acc := by
  intro fuel
  induction fuel with
  | zero =>
      intro acc hnd hsub hbound
      exfalso
      have hle : acc.length ≤ (s :: nodes g).length :=
        (hnd.subperm hsub).length_le
      simp only [List.length_cons] at hle
      omega
  | succ n ih =>
      intro acc hnd hsub hbound
      rw [reachFix]
      by_cases hlen : (reachStep g acc).length = acc.length
      · simp only [hlen, if_pos rfl]
        exact reachStep_fixpoint_closed hlen
      · simp only [if_neg hlen]
        have hfresh : (reachStep g acc).length = acc.length +
            (((acc.flatMap (nbrs g)).dedup).filter
              (fun u => decide (u ∉ acc))).length := by
          simp [reachStep]
        have hpos : 1 ≤ (((acc.flatMap (nbrs g)).dedup).filter
            (fun u => decide (u ∉ acc))).length := by
          by_contra hz
          exact hlen (by omega)
        refine ih (reachStep g acc) ?_ ?_ (by omega)
        · simp only [reachStep]
          refine hnd.append ((List.nodup_dedup _).filter _) ?_
          intro a ha hafil
          have := (List.mem_filter.mp hafil).2
          simp only [decide_eq_true_eq] at this
          exact this ha
        · intro x hx
          simp only [reachStep, List.mem_append, List.mem_filter,
            List.mem_dedup, List.mem_flatMap] at hx
          rcases hx with hx | ⟨⟨z, _, hzx⟩, _⟩
          · exact hsub x hx
          · exact List.mem_cons_of_mem s (nbrs_subset_nodes hzx)

/-- Correctness of the `nx.has_path` embedding. -/
theorem hasPath_iff_reachable {g : Graph V} {s t : V} :
    hasPath g s t = true ↔ Reachable g s t := by
  constructor
  · intro h
    simp only [hasPath, decide_eq_true_eq] at h
    refine reachFix_sound _ [s] ?_ t h
    intro x hx
    rw [List.mem_singleton.mp hx]
    exact .refl s
  · intro h
    simp only [hasPath, decide_eq_true_eq]
    have hclosed := reachFix_closed g s ((nodes g).length + 1) [s]
      (List.nodup_singleton s) (by intro x hx; simp at hx; simp [hx])
      (by simp only [List.length_singleton]; omega)
    have hs : s ∈ reachFix g ((nodes g).length + 1) [s] :=
      subset_reachFix _ [s] s (List.mem_singleton.mpr rfl)
    induction h with
    | refl => exact hs
    | tail _ hadj ih => exact hclosed _ ih _ (mem_nbrs.mpr hadj)

/-! ### Edge removal and connectivity surgery -/

theorem removeEdge_adj {g g2 : Graph V} {a b : V}
    (h : removeEdge g a b = some g2) (x y : V) :
    Adj g x y ↔ Adj g2 x y ∨ ((x = a ∧ y = b) ∨ (x = b ∧ y = a)) := by
  rw [removeEdge] at h
  by_cases hedge : hasEdge g a b
  · rw [if_pos hedge, Option.some.injEq] at h
    subst h
    constructor
    · rintro ⟨e, he, hor⟩
      by_cases hmatch : (e.1 = a ∧ e.2 = b) ∨ (e.1 = b ∧ e.2 = a)
      · right
        rcases hor with ⟨hx, hy⟩ | ⟨hx, hy⟩ <;> rcases hmatch with ⟨ha, hb⟩ | ⟨ha, hb⟩
        · exact Or.inl ⟨hx ▸ ha, hy ▸ hb⟩
        · exact Or.inr ⟨hx ▸ ha, hy ▸ hb⟩
        · exact Or.inr ⟨hy ▸ hb, hx ▸ ha⟩
        · exact Or.inl ⟨hy ▸ hb, hx ▸ ha⟩
      · left
        refine ⟨e, List.mem_filter.mpr ⟨he, ?_⟩, hor⟩
        rw [Bool.not_eq_true', decide_eq_false_iff_not]
        exact hmatch
    · rintro (⟨e, he, hor⟩ | hab)
      · exact ⟨e, (List.mem_filter.mp he).1, hor⟩
      · rw [hasEdge, List.any_eq_true] at hedge
        obtain ⟨e, he, hmatch⟩ := hedge
        simp only [decide_eq_true_eq] at hmatch
        refine ⟨e, he, ?_⟩
        rcases hab with ⟨hx, hy⟩ | ⟨hx, hy⟩ <;> subst hx <;> subst hy
        · exact hmatch
        · exact hmatch.symm
  · rw [if_neg hedge] at h
    exact absurd h (by simp)

theorem reachable_of_adj_imp {g1 g2 : Graph V}
    (h : ∀ x y, Adj g1 x y → Adj g2 x y) {s t : V}
    (r : Reachable g1 s t) : Reachable g2 s t := by
  induction r with
  | refl => exact .refl _
  | tail _ hadj ih => exact .tail ih (h _ _ hadj)

/-- Splicing out an edge: if the removed edge's endpoints stay
connected in the reduced graph, reachability is preserved. -/
theorem reachable_removeEdge {g g2 : Graph V} {a b : V}
    (h : removeEdge g a b = some g2) (hab : Reachable g2 a b) {x y : V}
    (r : Reachable g x y) : Reachable g2 x y := by
  induction r with
  | refl => exact .refl _
  | tail _ hadj ih =>
      rcases (removeEdge_adj h _ _).mp hadj with h2 | ⟨hx, hy⟩ | ⟨hx, hy⟩
      · exact .tail ih h2
      · exact reachable_trans ih (hx ▸ hy ▸ hab)
      · exact reachable_trans ih (hx ▸ hy ▸ reachable_symm hab)

theorem removeEdge_adj_imp {g g2 : Graph V} {a b : V}
    (h : removeEdge g a b = some g2) {x y : V} (hadj : Adj g2 x y) :
    Adj g x y := ((removeEdge_adj h x y).mpr (Or.inl hadj))

theorem removeEdges_adj_imp {l : List (V × V)} :
    ∀ {g gr : Graph V}, removeEdges g l = some gr →
      ∀ {x y : V}, Adj gr x y → Adj g x y := by
  induction l with
  | nil =>
      intro g gr h x y hadj
      rw [removeEdges, Option.some.injEq] at h
      exact h ▸ hadj
  | cons e rest ih =>
      intro g gr h x y hadj
      rw [removeEdges, Option.bind_eq_bind, Option.bind_eq_some] at h
      obtain ⟨g2, hg2, hrest⟩ := h
      exact removeEdge_adj_imp hg2 (ih hrest hadj)

/-- Restoring a batch of removed edges: if every removed edge's
endpoints are connected in the final reduced graph, reachability in
the original graph implies reachability in the reduced graph. -/
theorem reachable_removeEdges {l : List (V × V)} :
    ∀ {g gr : Graph V}, removeEdges g l = some gr →
      (∀ e ∈ l, Reachable gr e.1 e.2) →
      ∀ {x y : V}, Reachable g x y → Reachable gr x y := by
  induction l with
  | nil =>
      intro g gr h _ x y r
      rw [removeEdges, Option.some.injEq] at h
      exact h ▸ r
  | cons e rest ih =>
      intro g gr h hcon x y r
      rw [removeEdges, Option.bind_eq_bind, Option.bind_eq_some] at h
      obtain ⟨g2, hg2, hrest⟩ := h
      have he2 : Reachable g2 e.1 e.2 :=
        reachable_of_adj_imp (fun _ _ => removeEdges_adj_imp hrest)
          (hcon e (List.mem_cons_self e rest))
      have r2 : Reachable g2 x y := reachable_removeEdge hg2 he2 r
      exact ih hrest (fun e' he' => hcon e' (List.mem_cons_of_mem e he')) r2

/-- The `flag` loop removes exactly the combination's edges. -/
theorem flagLoop_graph {comb : List (V × V)} :
    ∀ {g : Graph V} {gr : Graph V} {f : Bool},
      flagLoop g comb = some (gr, f) → removeEdges g comb = some gr := by
  induction comb with
  | nil =>
      intro g gr f h
      rw [flagLoop] at h
      simp only [Option.some.injEq, Prod.mk.injEq] at h
      rw [removeEdges, h.1]
  | cons e rest ih =>
      intro g gr f h
      rw [flagLoop, Option.bind_eq_bind, Option.bind_eq_some] at h
      obtain ⟨g2, hg2, h⟩ := h
      rw [Option.bind_eq_bind, Option.bind_eq_some] at h
      obtain ⟨⟨gr2, f2⟩, hr, hpure⟩ := h
      simp only [Option.pure_def, Option.some.injEq, Prod.mk.injEq] at hpure
      rw [removeEdges, Option.bind_eq_bind, hg2, Option.some_bind]
      exact hpure.1 ▸ ih hr

/-- The sequential per-removal connectivity test of the `flag` loop is
equivalent to requiring every blocked edge's endpoints to be connected
in the graph with all of the combination's edges removed. -/
theorem flagLoop_accepts_iff {comb : List (V × V)} :
    ∀ {g gr : Graph V},
      flagLoop g comb = some (gr, true) ↔
        removeEdges g comb = some gr ∧ ∀ e ∈ comb, Reachable gr e.1 e.2 := by
  induction comb with
  | nil =>
      intro g gr
      rw [flagLoop, removeEdges]
      simp
  | cons e rest ih =>
      intro g gr
      constructor
      · intro h
        rw [flagLoop, Option.bind_eq_bind, Option.bind_eq_some] at h
        obtain ⟨g2, hg2, h⟩ := h
        rw [Option.bind_eq_bind, Option.bind_eq_some] at h
        obtain ⟨⟨gr2, f2⟩, hr, hpure⟩ := h
        simp only [Option.pure_def, Option.some.injEq, Prod.mk.injEq,
          Bool.and_eq_true] at hpure
        have hgr := hpure.1
        have hok := hpure.2.1
        have hf2 := hpure.2.2
        subst hgr
        subst hf2
        obtain ⟨hrem, hcon⟩ := ih.mp hr
        refine ⟨?_, ?_⟩
        · rw [removeEdges, Option.bind_eq_bind, hg2, Option.some_bind]
          exact hrem
        · intro e' he'
          rcases List.mem_cons.mp he' with he' | he'
          · subst he'
            exact reachable_removeEdges hrem hcon
              (hasPath_iff_reachable.mp hok)
          · exact hcon e' he'
      · rintro ⟨hrem, hcon⟩
        rw [removeEdges, Option.bind_eq_bind, Option.bind_eq_some] at hrem
        obtain ⟨g2, hg2, hrest⟩ := hrem
        have hflag : flagLoop g2 rest = some (gr, true) :=
          ih.mpr ⟨hrest, fun e' he' => hcon e' (List.mem_cons_of_mem e he')⟩
        have hok : hasPath g2 e.1 e.2 = true := by
          refine hasPath_iff_reachable.mpr ?_
          exact reachable_of_adj_imp (fun _ _ => removeEdges_adj_imp hrest)
            (hcon e (List.mem_cons_self e rest))
        rw [flagLoop, Option.bind_eq_bind, hg2, Option.some_bind,
          Option.bind_eq_bind, hflag, Option.some_bind, hok]
        rfl

/-! ### Structure of the reduced-path walk -/

theorem walkStep_newPath {g : Graph V} {pl : Option V} {st st2 : WalkState V}
    {vp : V} (h : walkStep g pl st vp = some st2) :
    st2.newPath = st.newPath ∨ st2.newPath = st.newPath ++ [vp] := by
  simp only [walkStep] at h
  split at h
  · cases h
    exact Or.inl rfl
  · split at h
    · cases h
      exact Or.inr rfl
    · split at h
      · exact Option.noConfusion h
      · split at h
        · exact Option.noConfusion h
        · split at h
          · exact Option.noConfusion h
          · cases h
            exact Or.inl rfl

theorem walkStep_skip {g : Graph V} {pl : Option V} {st : WalkState V} {vp : V}
    (hmem : vp ∈ st.newPath) : walkStep g pl st vp = some st := by
  rw [walkStep, if_pos hmem]

theorem walkStep_originalPath {g : Graph V} {pl : Option V}
    {st st2 : WalkState V} {vp : V} (hmem : vp ∉ st.newPath)
    (h : walkStep g pl st vp = some st2) :
    st2.originalPath = st.originalPath ++ [vp] := by
  simp only [walkStep, if_neg hmem] at h
  split at h
  · cases h
    rfl
  · split at h
    · exact Option.noConfusion h
    · split at h
      · exact Option.noConfusion h
      · split at h
        · exact Option.noConfusion h
        · cases h
          rfl

/-- The reduced path only ever grows by waypoints of the walked path,
in order: bypass vertices are never inserted into it. -/
theorem walkLoop_newPath_sublist {g : Graph V} {pl : Option V} :
    ∀ {l : List V} {st st2 : WalkState V},
      walkLoop g pl st l = some st2 →
      ∃ t, t.Sublist l ∧ st2.newPath = st.newPath ++ t := by
  intro l
  induction l with
  | nil =>
      intro st st2 h
      rw [walkLoop] at h
      cases h
      exact ⟨[], List.Sublist.refl _, by simp⟩
  | cons vp rest ih =>
      intro st st2 h
      rw [walkLoop, Option.bind_eq_bind, Option.bind_eq_some] at h
      obtain ⟨stm, hstep, hloop⟩ := h
      obtain ⟨t, hsub, heq⟩ := ih hloop
      rcases walkStep_newPath hstep with hnp | hnp
      · exact ⟨t, hsub.cons vp, by rw [heq, hnp]⟩
      · exact ⟨vp :: t, hsub.cons₂ vp, by rw [heq, hnp]; simp⟩

/-- On a duplicate-free reference path, every walked waypoint is
appended to `original_path`. -/
theorem walkLoop_originalPath_of_nodup {g : Graph V} {pl : Option V} :
    ∀ {l : List V} {st st2 : WalkState V}, l.Nodup →
      (∀ x ∈ st.newPath, x ∉ l) →
      walkLoop g pl st l = some st2 →
      st2.originalPath = st.originalPath ++ l := by
  intro l
  induction l with
  | nil =>
      intro st st2 _ _ h
      rw [walkLoop] at h
      cases h
      simp
  | cons vp rest ih =>
      intro st st2 hnd hdisj h
      rw [walkLoop, Option.bind_eq_bind, Option.bind_eq_some] at h
      obtain ⟨stm, hstep, hloop⟩ := h
      have hvp : vp ∉ st.newPath :=
        fun hmem => hdisj vp hmem (List.mem_cons_self vp rest)
      have horig : stm.originalPath = st.originalPath ++ [vp] :=
        walkStep_originalPath hvp hstep
      have hnd2 := (List.nodup_cons.mp hnd).2
      have hvprest := (List.nodup_cons.mp hnd).1
      have hdisj2 : ∀ x ∈ stm.newPath, x ∉ rest := by
        intro x hx
        rcases walkStep_newPath hstep with hnp | hnp
        · exact fun hr =>
            hdisj x (hnp ▸ hx) (List.mem_cons_of_mem vp hr)
        · rw [hnp, List.mem_append, List.mem_singleton] at hx
          rcases hx with hx | hx
          · exact fun hr => hdisj x hx (List.mem_cons_of_mem vp hr)
          · exact hx ▸ hvprest
      rw [ih hnd2 hdisj2 hloop, horig, List.append_assoc, List.singleton_append]

/-! ### The detailed path, and its specification reading -/

/-- The first index at which the ordered pair `e` occurs as a pair of
consecutive entries of `path`. -/
def pairIdx? (path : List V) (e : V × V) : Option Nat :=
  (List.range path.length).find? (fun i =>
    decide (path.get? i = some e.1 ∧ path.get? (i + 1) = some e.2))

/-- Modelled from the spec: the detailed path substitutes, for each
blocked edge, "its two consecutive positions in the original path"
with the bypass, "adjusting subsequent index offsets by
(bypass length − 2) per substitution".  Identical to `detailedLoop`
except that the substitution index is the position where the edge
itself occurs, rather than `path.index(edge[0])`. -/
def specDetailedLoop (g : Graph V) (path : List V) :
    List (V × V) → List V → Int → Option (List V)
  | [], detailed, _ => some detailed
  | e :: rest, detailed, adjustment =>
      match shortestPath g e.1 e.2 with
      | none => none
      | some bypass =>
          match pairIdx? path e with
          | none => none
          | some i =>
              let edgeIdx : Int := (i : Int) + adjustment
              let d2 := detailed.take edgeIdx.toNat ++ bypass ++
                        detailed.drop (edgeIdx.toNat + 2)
              specDetailedLoop g path rest d2 (adjustment + (bypass.length : Int) - 2)

/-- When, for every blocked edge, the first occurrence of its source
endpoint is exactly where the edge sits in the path, the code's
substitution loop agrees with the specification reading. -/
theorem detailedLoop_eq_spec {g : Graph V} {path : List V} :
    ∀ {comb : List (V × V)} {d : List V} {adj : Int},
      (∀ e ∈ comb, path.findIdx? (fun v => v == e.1) = pairIdx? path e) →
      detailedLoop g path comb d adj = specDetailedLoop g path comb d adj := by
  intro comb
  induction comb with
  | nil => intro d adj _; rfl
  | cons e rest ih =>
      intro d adj hidx
      rw [detailedLoop, specDetailedLoop]
      rcases shortestPath g e.1 e.2 with _ | bypass
      · rfl
      · rw [← hidx e (List.mem_cons_self e rest)]
        rcases path.findIdx? (fun v => v == e.1) with _ | i
        · rfl
        · exact ih (fun e' he' => hidx e' (List.mem_cons_of_mem e he'))

/-! ### Inversion of the per-combination processing -/

/-- If processing a combination emits a record, the record's fields
are exactly those produced by the accepted flag loop, the reduced-path
walk and the detailed-path substitution, and the reduced path obeys
the 15-node cap. -/
theorem processComb_record {g : Graph V} {path : List V}
    {comb cb : List (V × V)} {oc : CombOutcome V} {np op dp : List V}
    (h : processComb g path comb = some oc)
    (hr : oc.record = some (cb, np, op, dp)) :
    ∃ gr st, flagLoop g comb = some (gr, true) ∧
      walkLoop gr path.getLast? ⟨[], [], []⟩ path = some st ∧
      detailedLoop gr path comb path 0 = some dp ∧
      cb = comb ∧ np = st.newPath ∧ op = st.originalPath ∧
      st.newPath.length ≤ 15 := by
  rw [processComb, Option.bind_eq_bind, Option.bind_eq_some] at h
  obtain ⟨⟨gr, f⟩, hflag, h⟩ := h
  cases f with
  | false =>
      simp only [Bool.false_eq_true, if_false, Option.pure_def,
        Option.some.injEq] at h
      subst h
      exact absurd hr (by simp)
  | true =>
      simp only [eq_self_iff_true, if_true] at h
      rw [Option.bind_eq_bind, Option.bind_eq_some] at h
      obtain ⟨st, hwalk, h⟩ := h
      rw [Option.bind_eq_bind, Option.bind_eq_some] at h
      obtain ⟨detailed, hdet, h⟩ := h
      by_cases hlen : st.newPath.length ≤ 15
      · rw [if_pos hlen] at h
        simp only [Option.pure_def, Option.some.injEq] at h
        subst h
        simp only [Option.some.injEq, Prod.mk.injEq] at hr
        obtain ⟨h1, h2, h3, h4⟩ := hr
        exact ⟨gr, st, hflag, hwalk, h4 ▸ hdet, h1.symm, h2.symm, h3.symm, hlen⟩
      · rw [if_neg hlen] at h
        simp only [Option.pure_def, Option.some.injEq] at h
        subst h
        exact absurd hr (by simp)

/-- If the reduced path breaks the 15-node cap, processing emits
nothing at all: no record, no diagnostics, and no error. -/
theorem processComb_too_long {g gr : Graph V} {path : List V}
    {comb : List (V × V)} {st : WalkState V} {dp : List V}
    (hflag : flagLoop g comb = some (gr, true))
    (hwalk : walkLoop gr path.getLast? ⟨[], [], []⟩ path = some st)
    (hdet : detailedLoop gr path comb path 0 = some dp)
    (hlen : 15 < st.newPath.length) :
    processComb g path comb =
      some { record := none, modifiedLengthsAdd := [], duplicateAdd := 0 } := by
  rw [processComb, Option.bind_eq_bind, hflag, Option.some_bind]
  simp only [eq_self_iff_true, if_true]
  rw [Option.bind_eq_bind, hwalk, Option.some_bind,
    Option.bind_eq_bind, hdet, Option.some_bind, if_neg (by omega)]
  rfl

/-! ### Concrete instances (viewpoint ids encoded as naturals) -/

/-- Scenario graph: A=0, B=1, C=2, D=3, X=4 with edges A-B, B-C, C-D
and the alternate route B-X, X-C. -/
def exG1 : Graph Nat := [(0, 1), (1, 2), (2, 3), (1, 4), (4, 2)]

/-- Scenario reference path [A, B, C, D]. -/
def exP1 : List Nat := [0, 1, 2, 3]

/-- The outcome emitted for the scenario combination. -/
def exOC1 : CombOutcome Nat :=
  { record := some ([(1, 2)], [0, 1, 3], [0, 1, 2, 3], [0, 1, 4, 2, 3]),
    modifiedLengthsAdd := [5], duplicateAdd := 0 }

/-- Reference path with a repeated waypoint: [A, B, C, D, C]. -/
def exP5 : List Nat := [0, 1, 2, 3, 2]

/-- Graph for the substitution counterexample: A=0, B=1, C=2, D=3 with
edges A-B, A-C, A-D, D-C. -/
def exG6 : Graph Nat := [(0, 1), (0, 2), (0, 3), (3, 2)]

/-- Reference path revisiting A: [A, B, A, C]. -/
def exP6 : List Nat := [0, 1, 0, 2]

/-- A 17-waypoint straight-line reference path 0-1-...-16 with one
extra detour 15-17-16 around the final edge. -/
def lineG : Graph Nat :=
  (List.range 16).map (fun i => (i, i + 1)) ++ [(15, 17), (17, 16)]

/-- The straight-line reference path of 17 waypoints. -/
def lineP : List Nat := List.range 17

/-! ### Claims about the synthesizer -/

/-- C1 (counterexample): in the spec's own scenario — path
[A,B,C,D] = [0,1,2,3], k = 1, blocked edge (B,C) = (1,2), alternate
route B-X-C via X = 4 — the accepted combination's reduced path is
[A,B,D] = [0,1,3]: the bypass is *not* inserted, and the result is
neither [A,B,X,C,D] nor [A,B,C,D], refuting the claim for both of its
cases. -/
theorem c1_counterexample :
    processComb exG1 exP1 [(1, 2)] =
      some { record := some ([(1, 2)], [0, 1, 3], [0, 1, 2, 3], [0, 1, 4, 2, 3]),
             modifiedLengthsAdd := [5], duplicateAdd := 0 } ∧
    ([0, 1, 3] : List Nat) ≠ [0, 1, 4, 2, 3] ∧
    ([0, 1, 3] : List Nat) ≠ [0, 1, 2, 3] :=
  ⟨by decide, by decide, by decide⟩

/-- C1 (amended): the reduced path never receives bypass vertices at
all — whenever a record is emitted, its reduced path is a subsequence
of the reference path (made of the waypoints that were candidates when
walked); a waypoint reached only via a bypass is dropped, and the
bypass itself only grows the candidate frontier. -/
theorem c1_reduced_path_subsequence {g : Graph V} {path : List V}
    {comb cb : List (V × V)} {oc : CombOutcome V} {np op dp : List V}
    (h : processComb g path comb = some oc)
    (hr : oc.record = some (cb, np, op, dp)) :
    np.Sublist path := by
  obtain ⟨gr, st, _, hwalk, _, _, hnp, _, _⟩ := processComb_record h hr
  obtain ⟨t, hsub, heq⟩ := walkLoop_newPath_sublist hwalk
  rw [hnp, heq]
  simpa using hsub

/-- C1 witness: the amended theorem applied to the scenario instance. -/
theorem c1_reduced_path_subsequence_witness :
    ([0, 1, 3] : List Nat).Sublist [0, 1, 2, 3] :=
  c1_reduced_path_subsequence
    (by decide : processComb exG1 exP1 [(1, 2)] = some exOC1)
    (by decide : exOC1.record =
      some ([(1, 2)], [0, 1, 3], [0, 1, 2, 3], [0, 1, 4, 2, 3]))

/-- C2 (confirmed): a combination is accepted by the sequential flag
loop exactly when every blocked edge's endpoints remain connected in
the graph with all k of the combination's edges removed — an
order-independent condition, each blocked edge considered
independently. -/
theorem c2_combination_filter_iff (g gr : Graph V) (comb : List (V × V)) :
    flagLoop g comb = some (gr, true) ↔
      removeEdges g comb = some gr ∧ ∀ e ∈ comb, Reachable gr e.1 e.2 :=
  flagLoop_accepts_iff

/-- C2 witness: on the scenario instance, acceptance of the blocked
edge (1,2) yields its residual connectivity. -/
theorem c2_combination_filter_iff_witness :
    Reachable [(0, 1), (2, 3), (1, 4), (4, 2)] 1 2 :=
  ((c2_combination_filter_iff exG1 [(0, 1), (2, 3), (1, 4), (4, 2)]
    [(1, 2)]).mp (by decide)).2 (1, 2) (by decide)

/-- C5 (counterexample): for the reference path [A,B,C,D,C] =
[0,1,2,3,2] with blocked edge (B,C), the accepted combination's third
component is [0,1,2,3,2] — the waypoint C = 2 appears twice, because
the deduplication is performed against the reduced path (which never
received C's first occurrence), not against the emitted list itself. -/
theorem c5_counterexample :
    processComb exG1 exP5 [(1, 2)] =
      some { record := some ([(1, 2)], [0, 1, 2], [0, 1, 2, 3, 2],
                             [0, 1, 4, 2, 3, 2]),
             modifiedLengthsAdd := [6], duplicateAdd := 0 } ∧
    ¬ ([0, 1, 2, 3, 2] : List Nat).Nodup :=
  ⟨by decide, by decide⟩

/-- C5 (amended): the third component deduplicates against the reduced
path; on a duplicate-free reference path it is therefore the reference
path itself (in particular first-occurrences in order with no repeats),
but a repeated waypoint whose earlier occurrence was not kept in the
reduced path is emitted again. -/
theorem c5_original_path_of_nodup {g : Graph V} {path : List V}
    {comb cb : List (V × V)} {oc : CombOutcome V} {np op dp : List V}
    (hnd : path.Nodup)
    (h : processComb g path comb = some oc)
    (hr : oc.record = some (cb, np, op, dp)) :
    op = path := by
  obtain ⟨gr, st, _, hwalk, _, _, _, hop, _⟩ := processComb_record h hr
  have := walkLoop_originalPath_of_nodup hnd (by intro x hx; cases hx) hwalk
  rw [hop, this]
  simp

/-- C5 witness: on the duplicate-free scenario path the emitted third
component is the reference path itself. -/
theorem c5_original_path_of_nodup_witness :
    ([0, 1, 2, 3] : List Nat) = exP1 :=
  c5_original_path_of_nodup (by decide)
    (by decide : processComb exG1 exP1 [(1, 2)] = some exOC1)
    (by decide : exOC1.record =
      some ([(1, 2)], [0, 1, 3], [0, 1, 2, 3], [0, 1, 4, 2, 3]))

/-- C6 (counterexample): for the reference path [A,B,A,C] = [0,1,0,2]
with blocked edge (A,C) = (0,2) and bypass A-D-C, the emitted detailed
path is [0,3,2,0,2]: the substitution happens at `path.index(A)` = 0,
the *first* occurrence of A, not at the edge's own consecutive
positions 2,3, where the spec's description would produce
[0,1,0,3,2]. -/
theorem c6_counterexample :
    processComb exG6 exP6 [(0, 2)] =
      some { record := some ([(0, 2)], [0, 1], [0, 1, 2], [0, 3, 2, 0, 2]),
             modifiedLengthsAdd := [5], duplicateAdd := 0 } ∧
    specDetailedLoop [(0, 1), (0, 3), (3, 2)] exP6 [(0, 2)] exP6 0 =
      some [0, 1, 0, 3, 2] ∧
    ([0, 3, 2, 0, 2] : List Nat) ≠ [0, 1, 0, 3, 2] :=
  ⟨by decide, by decide, by decide⟩

/-- C6 (amended): the substitution index is the first occurrence of
the blocked edge's source endpoint plus the accumulated offset; when,
for every blocked edge, that first occurrence is exactly where the
edge sits in the path (in particular for duplicate-free paths), the
emitted detailed path agrees with the spec's description of replacing
the edge's own two consecutive positions by the residual-graph
shortest-path bypass with offsets of (bypass length − 2). -/
theorem c6_detailed_path_spec {g : Graph V} {path : List V}
    {comb cb : List (V × V)} {oc : CombOutcome V} {np op dp : List V}
    (h : processComb g path comb = some oc)
    (hr : oc.record = some (cb, np, op, dp))
    (hidx : ∀ e ∈ comb, path.findIdx? (fun v => v == e.1) = pairIdx? path e) :
    ∃ gr, removeEdges g comb = some gr ∧
      specDetailedLoop gr path comb path 0 = some dp := by
  obtain ⟨gr, st, hflag, _, hdet, _, _, _, _⟩ := processComb_record h hr
  exact ⟨gr, flagLoop_graph hflag, (detailedLoop_eq_spec hidx) ▸ hdet⟩

/-- C6 witness: on the scenario instance, the code's detailed path
[0,1,4,2,3] coincides with the spec substitution. -/
theorem c6_detailed_path_spec_witness :
    ∃ gr, removeEdges exG1 [(1, 2)] = some gr ∧
      specDetailedLoop gr exP1 [(1, 2)] exP1 0 = some [0, 1, 4, 2, 3] :=
  c6_detailed_path_spec
    (by decide : processComb exG1 exP1 [(1, 2)] = some exOC1)
    (by decide : exOC1.record =
      some ([(1, 2)], [0, 1, 3], [0, 1, 2, 3], [0, 1, 4, 2, 3]))
    (by decide)

/-- C7 (counterexample): blocking the last edge of the 17-waypoint
straight-line path gives a reduced path of 16 nodes; the combination
is silently excluded from the output, and *nothing* is recorded: no
"too-long" counter exists — the record, the `modified_lengths`
diagnostic and the duplicate counter all stay untouched. -/
theorem c7_counterexample :
    processComb lineG lineP [(15, 16)] =
      some { record := none, modifiedLengthsAdd := [], duplicateAdd := 0 } ∧
    (do
      let fr ← flagLoop lineG [(15, 16)]
      let st ← walkLoop fr.1 lineP.getLast? ⟨[], [], []⟩ lineP
      pure st.newPath.length) = some 16 :=
  ⟨by decide, by decide⟩

/-- C7 (amended): a combination whose reduced path exceeds 15 nodes is
silently excluded — processing returns normally with no record and no
diagnostic contribution of any kind (in particular no "too-long"
counter is incremented; the > 15 diagnostic printed at the end counts
detailed-path lengths of *accepted* combinations only). -/
theorem c7_long_reduced_path_silently_dropped {g : Graph V}
    {path np : List V} {comb : List (V × V)}
    (hrp : reducedPath g path comb = some np)
    (hlen : 15 < np.length)
    (hsome : (processComb g path comb).isSome = true) :
    processComb g path comb =
      some { record := none, modifiedLengthsAdd := [], duplicateAdd := 0 } := by
  rw [reducedPath, Option.bind_eq_bind, Option.bind_eq_some] at hrp
  obtain ⟨⟨gr, f⟩, hflag, hrp⟩ := hrp
  cases f with
  | false => simp at hrp
  | true =>
      simp only [eq_self_iff_true, if_true] at hrp
      rw [Option.bind_eq_bind, Option.bind_eq_some] at hrp
      obtain ⟨st, hwalk, hnp⟩ := hrp
      simp only [Option.pure_def, Option.some.injEq] at hnp
      obtain ⟨oc, hoc⟩ := Option.isSome_iff_exists.mp hsome
      rw [processComb, Option.bind_eq_bind, hflag, Option.some_bind] at hoc
      simp only [eq_self_iff_true, if_true] at hoc
      rw [Option.bind_eq_bind, hwalk, Option.some_bind,
        Option.bind_eq_bind, Option.bind_eq_some] at hoc
      obtain ⟨dp, hdet, _⟩ := hoc
      exact processComb_too_long hflag hwalk hdet (hnp ▸ hlen)

/-- C7 witness: the amended theorem applied to the 17-waypoint line,
whose reduced path keeps the 16 waypoints before the blocked edge. -/
theorem c7_long_reduced_path_silently_dropped_witness :
    processComb lineG lineP [(15, 16)] =
      some { record := none, modifiedLengthsAdd := [], duplicateAdd := 0 } :=
  c7_long_reduced_path_silently_dropped
    (by decide :
      reducedPath lineG lineP [(15, 16)] =
        some [0, 1, 2, 3, 4, 5, 6, 7, 8, 9, 10, 11, 12, 13, 14, 15])
    (by decide) (by decide)

end BlockEdge

namespace Agent

variable {V : Type} [DecidableEq V]

/-- The two scoring objectives dispatched on `args.expert_policy`. -/
inductive ExpertPolicy
  | ndtw
  | spl
deriving DecidableEq, Repr

/-- `dist < min_dist` where `min_dist` starts at `float('inf')`
(represented by `none`). -/
def ltMin (d : ℚ) : Option ℚ → Bool
  | none => true
  | some m => decide (d < m)

/-- `j > 0 and ((visited_masks is None) or (not visited_masks[i][j]))`
without the `j > 0` part. -/
def legalIdx (visitedMasks : Option (List Bool)) (j : Nat) : Bool :=
  match visitedMasks with
  | none => true
  | some m => !(m.getD j false)

/-- The candidate-selection loop of `_teacher_action_r4r` and
`_teacher_action_r4r_search`: skip any candidate whose incremental-map
distance from the current viewpoint reaches the sentinel, then take
the strictly-smallest score over legal indices (`j` is the running
index, `minIdx`/`minDist` the running minimum, `distOf` the score;
`none` from `distOf` models a `KeyError`). -/
def selectMinSkip (gmapDist : Option V → ℚ) (legal : Nat → Bool)
    (distOf : Option V → Option ℚ) :
    List (Option V) → Nat → Int → Option ℚ → Option Int
  | [], _, minIdx, _ => some minIdx
  | vpid :: rest, j, minIdx, minDist =>
      if sentinel ≤ gmapDist vpid then
        selectMinSkip gmapDist legal distOf rest (j + 1) minIdx minDist
      else if 0 < j ∧ legal j = true then
        match distOf vpid with
        | none => none
        | some dist =>
            if ltMin dist minDist then
              selectMinSkip gmapDist legal distOf rest (j + 1) (j : Int) (some dist)
            else
              selectMinSkip gmapDist legal distOf rest (j + 1) minIdx minDist
      else selectMinSkip gmapDist legal distOf rest (j + 1) minIdx minDist

/-- The candidate-selection loop of `_teacher_action_r4r_vln`: the
same minimisation but with **no** sentinel-distance skip. -/
def selectMinNoSkip (legal : Nat → Bool) (distOf : Option V → Option ℚ) :
    List (Option V) → Nat → Int → Option ℚ → Option Int
  | [], _, minIdx, _ => some minIdx
  | vpid :: rest, j, minIdx, minDist =>
      if 0 < j ∧ legal j = true then
        match distOf vpid with
        | none => none
        | some dist =>
            if ltMin dist minDist then
              selectMinNoSkip legal distOf rest (j + 1) (j : Int) (some dist)
            else
              selectMinNoSkip legal distOf rest (j + 1) minIdx minDist
      else selectMinNoSkip legal distOf rest (j + 1) minIdx minDist

/-- The observation fields the teacher policies read.  The
per-episode distance tables (`self.env.shortest_distances[...]`,
already selected by scan or by the (scan, block) compound key) enter
the embedding as function parameters. -/
structure Ob (V : Type) where
  viewpoint : V
  gtPath : List V
  originalPath : List V
  endpoint : V

/-- Scoring of one candidate in `_teacher_action_r4r`: `ndtwNeg vpid`
is the value `- cal_dtw(...)['nDTW']` computed for the candidate, and
`sd` the `(scan, block)`-keyed distance table.  A `none` vpid under
`spl` models the dictionary `KeyError`. -/
def r4rDistOf (expertPolicy : ExpertPolicy) (ndtwNeg : Option V → ℚ)
    (sd : V → V → ℚ) (ob : Ob V) : Option V → Option ℚ :=
  fun vpid =>
    match expertPolicy with
    | .ndtw => some (ndtwNeg vpid)
    | .spl =>
        match vpid with
        | some v => some (sd v ob.endpoint + sd ob.viewpoint v)
        | none => none

/-- One episode of `_teacher_action_r4r` (agent.py lines 411-459).
`none` models an uncaught exception (assert failure or indexing
error); `some a` is the entry written into the action tensor. -/
def teacherActionR4r (ignoreid : Int) (gmapDist : Option V → ℚ)
    (expertPolicy : ExpertPolicy) (ndtwNeg : Option V → ℚ)
    (sd : V → V → ℚ) (ob : Ob V) (vpids : List (Option V)) (ended : Bool)
    (visitedMasks : Option (List Bool)) (imitationLearning : Bool)
    (t : Nat) : Option Int :=
  if ended then some ignoreid
  else if imitationLearning then
    match ob.gtPath.get? t with
    | none => none
    | some vt =>
        if ob.viewpoint = vt then
          if t = ob.gtPath.length - 1 then some 0
          else
            match ob.gtPath.get? (t + 1) with
            | none => none
            | some goalVp =>
                some (match vpids.findIdx? (fun vpid => vpid == some goalVp) with
                      | some j => (j : Int)
                      | none => 0)
        else none
  else
    match ob.gtPath.getLast? with
    | none => none
    | some lastVp =>
        if ob.viewpoint = lastVp then some 0
        else
          selectMinSkip gmapDist (legalIdx visitedMasks)
            (r4rDistOf expertPolicy ndtwNeg sd ob) vpids 0 ignoreid none

/-- Scoring of one candidate in `_teacher_action_r4r_vln`: under
`spl`, a surrogate id is first mapped to its real viewpoint
(`real_vpid = gmaps[i].real_name[vpid] if "seen_node" in vpid else
vpid`). -/
def vlnDistOf (expertPolicy : ExpertPolicy) (ndtwNeg : Option V → ℚ)
    (sd : V → V → ℚ) (isSeenNode : V → Bool) (realName : V → V)
    (ob : Ob V) : Option V → Option ℚ :=
  fun vpid =>
    match expertPolicy with
    | .ndtw => some (ndtwNeg vpid)
    | .spl =>
        match vpid with
        | some v =>
            let realVpid := if isSeenNode v then realName v else v
            some (sd realVpid ob.endpoint + sd ob.viewpoint realVpid)
        | none => none

/-- One episode of `_teacher_action_r4r_vln` (agent.py lines 461-521):
note the absence of any `gmap.graph.distance ≥ 1e7` skip in its
scoring loop. -/
def teacherActionR4rVln (ignoreid : Int)
    (expertPolicy : ExpertPolicy) (ndtwNeg : Option V → ℚ)
    (sd : V → V → ℚ) (isSeenNode : V → Bool) (realName : V → V)
    (ob : Ob V) (vpids : List (Option V)) (ended : Bool)
    (visitedMasks : Option (List Bool)) (imitationLearning : Bool)
    (t baseT : Nat) : Option Int :=
  if ended then some ignoreid
  else if imitationLearning then
    match ob.gtPath.get? t, ob.originalPath.get? baseT with
    | some vt, some vb =>
        if ob.viewpoint = vt ∧ ob.viewpoint = vb then
          if t = ob.gtPath.length - 1 then some 0
          else
            match ob.originalPath.get? (baseT + 1) with
            | none => none
            | some goalVp =>
                some (match vpids.findIdx? (fun vpid => vpid == some goalVp) with
                      | some j => (j : Int)
                      | none => 0)
        else none
    | _, _ => none
  else
    match ob.gtPath.getLast? with
    | none => none
    | some lastVp =>
        if ob.viewpoint = lastVp then some 0
        else
          selectMinNoSkip (legalIdx visitedMasks)
            (vlnDistOf expertPolicy ndtwNeg sd isSeenNode realName ob)
            vpids 0 ignoreid none

/-- One call of `_teacher_action_r4r_search` (agent.py lines 523-563):
the search teacher aims at the designated `target`, keeps the
sentinel-distance skip, and scores with the `(scan, block)` distance
table against the target regardless of `expert_policy`. -/
def teacherActionR4rSearch (ignoreid : Int) (gmapDist : Option V → ℚ)
    (sd : V → V → ℚ) (ob : Ob V) (vpids : List (Option V)) (ended : Bool)
    (target : V) (visitedMasks : Option (List Bool))
    (imitationLearning : Bool) (t : Nat) : Option Int :=
  if ended then some ignoreid
  else if imitationLearning then
    match ob.gtPath.get? t with
    | none => none
    | some vt =>
        if ob.viewpoint = vt then
          if t = ob.gtPath.length - 1 then some 0
          else
            match ob.gtPath.get? (t + 1) with
            | none => none
            | some goalVp =>
                some (match vpids.findIdx? (fun vpid => vpid == some goalVp) with
                      | some j => (j : Int)
                      | none => 0)
        else none
  else
    if ob.viewpoint = target then some 0
    else
      selectMinSkip gmapDist (legalIdx visitedMasks)
        (fun vpid =>
          match vpid with
          | some v => some (sd v target + sd ob.viewpoint v)
          | none => none)
        vpids 0 ignoreid none

/-! ### The search fallback loop (`search_rollout`) -/

/-- `self.feedback`. -/
inductive Feedback
  | teacher
  | argmax
  | sample
  | explSample
deriving DecidableEq, Repr

/-- Abstract per-iteration environment of the search loop, indexed by
the step counter: the viewpoint observed at the loop top, the index the
feedback rule selects (`a_t`), `no_vp_left`, and whether
`gmap.graph.visited(target)` holds.  The model, observations and map
updates are the external collaborators these values come from. -/
structure SearchEnv (V : Type) where
  obViewpoint : Nat → V
  aT : Nat → Int
  noVpLeft : Nat → Bool
  visitedTarget : Nat → Bool

/-- `a_t_stop` of `search_rollout` (lines 778-781). -/
def searchStopDecision (env : SearchEnv V) (feedback : Feedback)
    (realTarget : V) (step : Nat) : Bool :=
  if feedback = .teacher ∨ feedback = .sample then
    decide (env.obViewpoint step = realTarget)
  else
    decide (env.aT step = 0) || env.visitedTarget step

/-- The while-loop of `search_rollout` (lines 686-805), fuel-bounded:
an iteration emits the stop pseudo-action and returns the final step
counter when `a_t_stop` holds, no viewpoint is left, or the step
counter has reached the shared budget `max_action_len - 1`; otherwise
the step counter advances by one. -/
def searchLoop (env : SearchEnv V) (feedback : Feedback) (realTarget : V)
    (maxActionLen : Nat) : Nat → Nat → Option Nat
  | 0, _ => none
  | fuel + 1, step =>
      if searchStopDecision env feedback realTarget step || env.noVpLeft step
          || decide (step = maxActionLen - 1) then
        some step
      else
        searchLoop env feedback realTarget maxActionLen fuel (step + 1)

/-- `search_rollout` entered with the episode's current step counter;
the budget check bounds the loop by `maxActionLen - startStep`
iterations. -/
def searchRollout (env : SearchEnv V) (feedback : Feedback) (realTarget : V)
    (maxActionLen startStep : Nat) : Option Nat :=
  searchLoop env feedback realTarget maxActionLen
    (maxActionLen - startStep) startStep

/-- Result of `make_equiv_action_vln` for one episode: the possibly
rewritten `a_t[i]` entry, `just_ended[i]`, and the updated shared step
counter `steps[i]`. -/
structure VlnStep (V : Type) where
  aT : Option V
  justEnded : Bool
  steps : Nat
deriving DecidableEq, Repr

/-- One episode of `make_equiv_action_vln` (lines 583-607), the
traversal bookkeeping of the reachable branch abstracted to "the
action stands": when the chosen target is unreachable in the
incremental map (`distance ≥ 1e7`), the search fallback runs on the
target's real name, and if it returns with the step counter at
`max_action_len - 1` the action is rewritten to stop and the episode
marked just-ended.  `none` models a non-returning search loop, which
`searchLoop_total` rules out. -/
def makeEquivActionVln (gmapDist : V → ℚ) (env : SearchEnv V)
    (feedback : Feedback) (realName : V → V) (maxActionLen : Nat)
    (action : Option V) (steps0 : Nat) (justEnded0 : Bool) :
    Option (VlnStep V) :=
  match action with
  | none => some { aT := none, justEnded := justEnded0, steps := steps0 }
  | some tgt =>
      if gmapDist tgt < sentinel then
        some { aT := some tgt, justEnded := justEnded0, steps := steps0 }
      else
        match searchRollout env feedback (realName tgt) maxActionLen steps0 with
        | none => none
        | some step =>
            if step = maxActionLen - 1 then
              some { aT := none, justEnded := true, steps := step }
            else
              some { aT := some tgt, justEnded := justEnded0, steps := step }

/-- Line 1028 of `rollout`: an episode is recorded as ended once its
prepared action is the stop pseudo-action (`None`). -/
def rolloutEndedUpdate (ended : Bool) (cpuAT : Option V) : Bool :=
  ended || cpuAT.isNone

/-! ### Pose resolution and the `scanvp_cands` cache -/

/-- One entry of an observation's candidate list. -/
structure Candidate (V : Type) where
  viewpointId : V
  pointId : Nat

/-- The observation fields `_update_scanvp_cands` reads. -/
structure CacheOb (S V : Type) where
  scan : S
  viewpoint : V
  candidate : List (Candidate V)

/-- The inner dictionary cand-viewpoint → 36-direction index. -/
abbrev InnerCands (V : Type) := List (V × Nat)

/-- `self.scanvp_cands`, keyed by `'%s_%s' % (scan, viewpoint)`.
Python dictionaries are modelled as association lists where an
assignment prepends and a lookup takes the newest binding. -/
abbrev ScanvpCands (S V : Type) := List ((S × V) × InnerCands V)

/-- Dictionary lookup (newest binding first); `none` is a `KeyError`. -/
def assocGet {α β : Type} [DecidableEq α] (d : List (α × β)) (k : α) :
    Option β :=
  (d.find? (fun p => p.1 == k)).map (fun p => p.2)

/-- Dictionary assignment. -/
def assocSet {α β : Type} [DecidableEq α] (d : List (α × β)) (k : α)
    (x : β) : List (α × β) :=
  (k, x) :: d

/-- `_update_scanvp_cands` for one observation (lines 628-636):
`setdefault` the per-(scan, viewpoint) entry, then store each
candidate's `pointId` under its `viewpointId`. -/
def updateScanvpCands {S : Type} [DecidableEq S]
    (c : ScanvpCands S V) (ob : CacheOb S V) : ScanvpCands S V :=
  let key := (ob.scan, ob.viewpoint)
  let inner := (assocGet c key).getD []
  let inner2 := ob.candidate.foldl
    (fun d cand => assocSet d cand.viewpointId cand.pointId) inner
  assocSet c key inner2

/-- `self.scanvp_cands['%s_%s' % (scan, prev_vp)][action]`. -/
def cacheLookup {S : Type} [DecidableEq S] (c : ScanvpCands S V)
    (scan : S) (vp tgt : V) : Option Nat :=
  (assocGet c (scan, vp)).bind (fun inner => assocGet inner tgt)

/-- Pose emitted to the simulator, in degrees: the code computes
`heading = (viewidx % 12) * math.radians(30)` and
`elevation = (viewidx // 12 - 1) * math.radians(30)`; the common
factor `radians(30)` is represented by the 30° unit. -/
structure Pose where
  heading : Nat
  elevation : Int
deriving DecidableEq, Repr

/-- The pose derived from a cached 36-direction index. -/
def poseOfViewidx (viewidx : Nat) : Pose :=
  { heading := viewidx % 12 * 30,
    elevation := ((viewidx : Int) / 12 - 1) * 30 }

/-- The `prev_vp` read-off of `make_equiv_action` (lines 574-577):
`traj[i]['path'][-1][-2]`, or `traj[i]['path'][-2][-1]` when the
segment just appended is a single vertex (`traj` here is the
trajectory *before* the append, so `[-2]` is its last segment). -/
def prevVpOf (traj : List (List V)) (seg : List V) : Option V :=
  if seg.length = 1 then
    traj.getLast?.bind (fun prevSeg => prevSeg.getLast?)
  else seg.dropLast.getLast?

/-- One episode of `make_equiv_action` (lines 565-581): a stop action
does nothing; otherwise the multi-hop expansion
`gmaps[i].graph.path(ob['viewpoint'], action)` is appended to the
trajectory, `prev_vp` is read off the trajectory, and the new pose
comes from the cached direction index of the edge
`(prev_vp, action)`.  `none` models an `IndexError`/`KeyError`. -/
def makeEquivAction {S : Type} [DecidableEq S] (c : ScanvpCands S V)
    (gmapPath : V → V → List V) (scan : S) (curVp : V)
    (action : Option V) (traj : List (List V)) :
    Option (List (List V) × Option (V × Pose)) :=
  match action with
  | none => some (traj, none)
  | some tgt => do
      let seg := gmapPath curVp tgt
      let prevVp ← prevVpOf traj seg
      let viewidx ← cacheLookup c scan prevVp tgt
      return (traj ++ [seg], some (tgt, poseOfViewidx viewidx))

/-! ### Surrogate-node masking -/

/-- The per-node state `_nav_gmap_variable_search` reads from the
graph map: the node key order, `gmap.graph.visited`, and
`gmap.graph.distance(ob['viewpoint'], ·)`. -/
structure GmapNodes (V : Type) where
  keys : List V
  visited : V → Bool
  distFromCur : V → ℚ

/-- The visited/unvisited/seen partition (lines 246-258) with
`act_visited_nodes` off: an unvisited node whose distance from the
current viewpoint reaches the sentinel is a surrogate "seen" node. -/
def partitionVps (n : GmapNodes V) : List V × List V × List V :=
  n.keys.foldl
    (fun acc k =>
      if n.visited k then (acc.1 ++ [k], acc.2.1, acc.2.2)
      else if sentinel ≤ n.distFromCur k then
        (acc.1, acc.2.1 ++ [k], acc.2.2 ++ [k])
      else (acc.1, acc.2.1 ++ [k], acc.2.2))
    ([], [], [])

/-- `gmap_vpids = [None] + visited_vpids + unvisited_vpids`
(`enc_full_graph`). -/
def gmapVpids (n : GmapNodes V) : List (Option V) :=
  none :: ((partitionVps n).1 ++ (partitionVps n).2.1).map some

/-- `seen_id = [gmap_vpids.index(x) for x in seen_vp]`. -/
def seenIds (n : GmapNodes V) : List Nat :=
  (partitionVps n).2.2.map
    (fun x => (gmapVpids n).findIdx (fun o => o == some x))

/-- `seen_mask`: ones of the gmap length, zeroed at the seen ids. -/
def seenMask (n : GmapNodes V) : List Bool :=
  (List.range (gmapVpids n).length).map (fun j => !((seenIds n).contains j))

/-- `masked_fill_(seen_mask.logical_not(), -float('inf'))`: `⊥` of
`WithBot ℚ` models `-inf`. -/
def maskedFillNegInf (mask : List Bool) (logits : List (WithBot ℚ)) :
    List (WithBot ℚ) :=
  List.zipWith (fun m l => if m then l else (⊥ : WithBot ℚ)) mask logits

/-- The search loop's masking (line 734): unconditional. -/
def searchNavLogits (mask : List Bool) (logits : List (WithBot ℚ)) :
    List (WithBot ℚ) :=
  maskedFillNegInf mask logits

/-- The outer rollout's masking (lines 894-895): applied only when
`args.search_target` is off. -/
def rolloutNavLogits (searchTarget : Bool) (mask : List Bool)
    (logits : List (WithBot ℚ)) : List (WithBot ℚ) :=
  if searchTarget then logits else maskedFillNegInf mask logits

/-- `nav_logits.max(1)`: index of the first maximal entry. -/
def argmaxIdx (l : List (WithBot ℚ)) : Nat :=
  (List.range l.length).foldl
    (fun best j => if l.getD best ⊥ < l.getD j ⊥ then j else best) 0

/-- Softmax support: `torch.softmax` sends exactly the `-inf` entries
to probability zero, so a categorical sample can only land on an index
whose masked logit is finite. -/
def softmaxSupport (l : List (WithBot ℚ)) (j : Nat) : Prop :=
  l.getD j ⊥ ≠ ⊥

/-! ### Selection-loop invariants -/

/-- Whatever index the skip-guarded minimisation returns is either its
initial value or the position of a candidate strictly below the
sentinel distance. -/
theorem selectMinSkip_result {gmapDist : Option V → ℚ} {legal : Nat → Bool}
    {distOf : Option V → Option ℚ} :
    ∀ {l : List (Option V)} {j0 : Nat} {minIdx a : Int} {minDist : Option ℚ},
      selectMinSkip gmapDist legal distOf l j0 minIdx minDist = some a →
      a = minIdx ∨ ∃ i vpid, l[i]? = some vpid ∧ a = ((j0 + i : Nat) : Int) ∧
        gmapDist vpid < sentinel := by
  intro l
  induction l with
  | nil =>
      intro j0 minIdx a minDist h
      rw [selectMinSkip] at h
      cases h
      exact Or.inl rfl
  | cons vpid rest ih =>
      intro j0 minIdx a minDist h
      rw [selectMinSkip] at h
      have htail : ∀ {minIdx2 : Int}, a = minIdx2 ∨
          (∃ i vp, rest[i]? = some vp ∧ a = ((j0 + 1 + i : Nat) : Int) ∧
            gmapDist vp < sentinel) →
          a = minIdx2 ∨ ∃ i vp, (vpid :: rest)[i]? = some vp ∧
            a = ((j0 + i : Nat) : Int) ∧ gmapDist vp < sentinel := by
        intro minIdx2 hh
        rcases hh with h1 | ⟨i, vp, hget, ha, hd⟩
        · exact Or.inl h1
        · refine Or.inr ⟨i + 1, vp, ?_, ?_, hd⟩
          · rw [List.getElem?_cons_succ]
            exact hget
          · rw [ha]
            congr 1
            omega
      by_cases hskip : sentinel ≤ gmapDist vpid
      · rw [if_pos hskip] at h
        exact htail (ih h)
      · rw [if_neg hskip] at h
        have hlt : gmapDist vpid < sentinel := lt_of_not_le hskip
        by_cases hleg : 0 < j0 ∧ legal j0 = true
        · rw [if_pos hleg] at h
          split at h
          · exact Option.noConfusion h
          · rename_i dist hdo
            by_cases hlt2 : ltMin dist minDist = true
            · rw [if_pos hlt2] at h
              rcases ih h with h1 | h2
              · refine Or.inr ⟨0, vpid, by simp, ?_, hlt⟩
                rw [h1]
                simp
              · exact htail (Or.inr h2)
            · rw [if_neg hlt2] at h
              exact htail (ih h)
        · rw [if_neg hleg] at h
          exact htail (ih h)

/-! ### Concrete episode data -/

/-- A distance oracle under which every candidate is reachable. -/
def exDistOne : Option Nat → ℚ := fun _ => 1

/-- The `(scan, block)`-keyed environment distance table of the
concrete episode. -/
def exSd : Nat → Nat → ℚ := fun _ _ => 1

/-- The (negated) nDTW score of the concrete episode. -/
def exNdtw : Option Nat → ℚ := fun _ => 0

/-- An episode away from its goal: current viewpoint 0, ground-truth
path [0, 5]. -/
def exObA : Ob Nat :=
  { viewpoint := 0, gtPath := [0, 5], originalPath := [0, 5], endpoint := 5 }

/-- An episode standing at its goal viewpoint 5. -/
def exObGoal : Ob Nat :=
  { viewpoint := 5, gtPath := [0, 5], originalPath := [0, 5], endpoint := 5 }

/-- The incremental-map distance oracle of an episode in which every
candidate is at the unreachable sentinel from the current viewpoint. -/
def exSentDist : Option Nat → ℚ := fun _ => sentinel

/-! ### Claims about the teacher policies -/

/-- C3 (amended): in the `_teacher_action_r4r` and
`_teacher_action_r4r_search` variants (scoring mode, episode not
ended), a candidate at sentinel distance from the current viewpoint in
the incremental map is skipped: any selected index other than the
ignore marker and stop points at a candidate strictly below the
sentinel.  (The `_teacher_action_r4r_vln` variant performs no such
check — see the counterexample.) -/
theorem c3_unreachable_candidates (ignoreid : Int) (gmapDist : Option V → ℚ)
    (expertPolicy : ExpertPolicy) (ndtwNeg : Option V → ℚ) (sd : V → V → ℚ)
    (ob : Ob V) (vpids : List (Option V)) (visitedMasks : Option (List Bool))
    (target : V) (t : Nat) :
    (∀ a, teacherActionR4r ignoreid gmapDist expertPolicy ndtwNeg sd ob vpids
        false visitedMasks false t = some a →
      a = ignoreid ∨ a = 0 ∨ ∃ (j : Nat) (vpid : Option V),
        vpids[j]? = some vpid ∧ a = (j : Int) ∧ gmapDist vpid < sentinel) ∧
    (∀ a, teacherActionR4rSearch ignoreid gmapDist sd ob vpids false target
        visitedMasks false t = some a →
      a = ignoreid ∨ a = 0 ∨ ∃ (j : Nat) (vpid : Option V),
        vpids[j]? = some vpid ∧ a = (j : Int) ∧ gmapDist vpid < sentinel) := by
  constructor
  · intro a h
    rw [teacherActionR4r] at h
    rcases hlast : ob.gtPath.getLast? with _ | lastVp
    · simp only [Bool.false_eq_true, if_false, hlast] at h
      exact Option.noConfusion h
    · simp only [Bool.false_eq_true, if_false, hlast] at h
      by_cases heq : ob.viewpoint = lastVp
      · rw [if_pos heq] at h
        cases h
        exact Or.inr (Or.inl rfl)
      · rw [if_neg heq] at h
        rcases selectMinSkip_result h with h1 | ⟨i, vpid, hget, ha, hd⟩
        · exact Or.inl h1
        · exact Or.inr (Or.inr ⟨i, vpid, hget, by rw [ha]; simp, hd⟩)
  · intro a h
    rw [teacherActionR4rSearch] at h
    simp only [Bool.false_eq_true, if_false] at h
    by_cases heq : ob.viewpoint = target
    · rw [if_pos heq] at h
      cases h
      exact Or.inr (Or.inl rfl)
    · rw [if_neg heq] at h
      rcases selectMinSkip_result h with h1 | ⟨i, vpid, hget, ha, hd⟩
      · exact Or.inl h1
      · exact Or.inr (Or.inr ⟨i, vpid, hget, by rw [ha]; simp, hd⟩)

/-- C3 witness: on a concrete episode with all candidates reachable,
the r4r selection lands on index 1; the theorem certifies the selected
candidate is below the sentinel. -/
theorem c3_unreachable_candidates_witness :
    (1 : Int) = -100 ∨ (1 : Int) = 0 ∨
      ∃ (j : Nat) (vpid : Option Nat),
        ([none, some 7] : List (Option Nat))[j]? = some vpid ∧
        (1 : Int) = (j : Int) ∧ exDistOne vpid < sentinel :=
  (c3_unreachable_candidates (-100) exDistOne .spl exNdtw exSd exObA
    [none, some 7] none 5 0).1 1 (by decide)

/-- C3 (counterexample): under an incremental map in which candidate 9
sits at the unreachable sentinel distance from the current viewpoint,
`_teacher_action_r4r_vln` still selects it (index 1) — it has no
reachability skip — whereas `_teacher_action_r4r` on the same episode
returns the ignore marker. -/
theorem c3_counterexample :
    teacherActionR4rVln (-100) .spl exNdtw exSd (fun _ => false)
      (fun v => v) exObA [none, some 9] false none false 0 0 = some 1 ∧
    ([none, some 9] : List (Option Nat))[1]? = some (some 9) ∧
    sentinel ≤ exSentDist (some 9) ∧
    teacherActionR4r (-100) exSentDist .spl exNdtw exSd exObA
      [none, some 9] false none false 0 = some (-100) :=
  ⟨by decide, by decide, by decide, by decide⟩

/-- C4 (confirmed): in scoring mode, every non-ended episode whose
current viewpoint equals the terminal goal — the ground-truth path's
last node for `_teacher_action_r4r` and `_teacher_action_r4r_vln`, the
designated real target for `_teacher_action_r4r_search` — receives the
stop index 0, in every objective variant. -/
theorem c4_stop_at_goal (ignoreid : Int) (gmapDist : Option V → ℚ)
    (expertPolicy : ExpertPolicy) (ndtwNeg : Option V → ℚ) (sd : V → V → ℚ)
    (isSeenNode : V → Bool) (realName : V → V) (ob : Ob V)
    (vpids : List (Option V)) (visitedMasks : Option (List Bool))
    (target : V) (t baseT : Nat)
    (hgoal : ob.gtPath.getLast? = some ob.viewpoint) :
    teacherActionR4r ignoreid gmapDist expertPolicy ndtwNeg sd ob vpids false
        visitedMasks false t = some 0 ∧
    teacherActionR4rVln ignoreid expertPolicy ndtwNeg sd isSeenNode realName
        ob vpids false visitedMasks false t baseT = some 0 ∧
    (ob.viewpoint = target →
      teacherActionR4rSearch ignoreid gmapDist sd ob vpids false target
        visitedMasks false t = some 0) := by
  refine ⟨?_, ?_, ?_⟩
  · rw [teacherActionR4r]
    simp only [Bool.false_eq_true, if_false, hgoal, eq_self_iff_true, if_true]
  · rw [teacherActionR4rVln]
    simp only [Bool.false_eq_true, if_false, hgoal, eq_self_iff_true, if_true]
  · intro htgt
    rw [teacherActionR4rSearch]
    simp only [Bool.false_eq_true, if_false]
    rw [if_pos htgt]

/-- C4 witness: the theorem applied to the concrete at-goal episode. -/
theorem c4_stop_at_goal_witness :
    teacherActionR4r (-100) exDistOne .spl exNdtw exSd exObGoal
        [none, some 7] false none false 0 = some 0 ∧
    teacherActionR4rVln (-100) .spl exNdtw exSd (fun _ => false)
        (fun v => v) exObGoal [none, some 7] false none false 0 0 = some 0 ∧
    (exObGoal.viewpoint = 5 →
      teacherActionR4rSearch (-100) exDistOne exSd exObGoal [none, some 7]
        false 5 none false 0 = some 0) :=
  c4_stop_at_goal (-100) exDistOne .spl exNdtw exSd (fun _ => false)
    (fun v => v) exObGoal [none, some 7] none 5 0 0 (by decide)

/-! ### Claim about the search step budget -/

/-- The search loop always returns (no exception) and never drives the
step counter past `max_action_len - 1`: the budget disjunct of its
exit condition fires at the latest when the counter reaches it. -/
theorem searchLoop_total (env : SearchEnv V) (feedback : Feedback)
    (realTarget : V) (maxActionLen : Nat) (hm : 1 ≤ maxActionLen) :
    ∀ (fuel step : Nat), step ≤ maxActionLen - 1 → maxActionLen - step ≤ fuel →
      ∃ s, searchLoop env feedback realTarget maxActionLen fuel step = some s ∧
        step ≤ s ∧ s ≤ maxActionLen - 1 := by
  intro fuel
  induction fuel with
  | zero =>
      intro step h1 h2
      omega
  | succ n ih =>
      intro step h1 h2
      rw [searchLoop]
      by_cases hcond : (searchStopDecision env feedback realTarget step
          || env.noVpLeft step || decide (step = maxActionLen - 1)) = true
      · rw [if_pos hcond]
        exact ⟨step, rfl, le_refl step, h1⟩
      · rw [if_neg hcond]
        have hne : step ≠ maxActionLen - 1 := by
          intro hstep
          exact hcond (by simp [hstep])
        obtain ⟨s, hs, hle1, hle2⟩ := ih (step + 1) (by omega) (by omega)
        exact ⟨s, hs, by omega, hle2⟩

/-- C8 (confirmed): when the outer rollout hands an unreachable target
(distance at the sentinel) to `make_equiv_action_vln`, the search
fallback always returns — no exception — with a step counter at most
`max_action_len - 1`; if it exhausted that shared budget, the episode's
action entry is rewritten to the stop pseudo-action, `just_ended` is
set, and the rollout's ended-update then marks the episode ended. -/
theorem c8_search_budget_exhaustion (gmapDist : V → ℚ) (env : SearchEnv V)
    (feedback : Feedback) (realName : V → V) (maxActionLen : Nat)
    (tgt : V) (steps0 : Nat) (justEnded0 ended0 : Bool)
    (hm : 1 ≤ maxActionLen) (hs : steps0 ≤ maxActionLen - 1)
    (hd : sentinel ≤ gmapDist tgt) :
    ∃ s, searchRollout env feedback (realName tgt) maxActionLen steps0 = some s ∧
      s ≤ maxActionLen - 1 ∧
      (s = maxActionLen - 1 →
        makeEquivActionVln gmapDist env feedback realName maxActionLen
          (some tgt) steps0 justEnded0 =
          some { aT := none, justEnded := true, steps := s } ∧
        rolloutEndedUpdate ended0 (none : Option V) = true) := by
  obtain ⟨s, hsr, _, hle⟩ := searchLoop_total env feedback (realName tgt)
    maxActionLen hm (maxActionLen - steps0) steps0 hs (le_refl _)
  have hsr2 : searchRollout env feedback (realName tgt) maxActionLen steps0 =
      some s := hsr
  refine ⟨s, hsr2, hle, ?_⟩
  intro hsmax
  refine ⟨?_, by simp [rolloutEndedUpdate]⟩
  simp only [makeEquivActionVln, if_neg (not_lt.mpr hd), hsr2]
  rw [if_pos hsmax]

/-- The search environment of the concrete exhaustion episode: the
agent never reaches the target and the policy keeps choosing index 1. -/
def exEnv : SearchEnv Nat :=
  { obViewpoint := fun _ => 0, aT := fun _ => 1,
    noVpLeft := fun _ => false, visitedTarget := fun _ => false }

/-- Node-level distance oracle placing every target at the sentinel. -/
def exSentDistNode : Nat → ℚ := fun _ => sentinel

/-- C8 witness: with budget 3 and start step 0, the concrete search
exhausts the budget at step 2 and the episode is stopped and ended. -/
theorem c8_search_budget_exhaustion_witness :
    ∃ s, searchRollout exEnv .argmax ((fun v => v) 9) 3 0 = some s ∧
      s ≤ 3 - 1 ∧
      (s = 3 - 1 →
        makeEquivActionVln exSentDistNode exEnv .argmax (fun v => v) 3
          (some 9) 0 false = some { aT := none, justEnded := true, steps := s } ∧
        rolloutEndedUpdate false (none : Option Nat) = true) :=
  c8_search_budget_exhaustion exSentDistNode exEnv .argmax (fun v => v) 3 9 0
    false false (by decide) (by decide) (by decide)

/-! ### Claim about pose resolution -/

theorem flatten_ne_nil {l : List (List V)} (hne : l ≠ [])
    (h : ∀ s ∈ l, s ≠ []) : l.flatten ≠ [] := by
  induction l with
  | nil => exact absurd rfl hne
  | cons s rest ih =>
      cases rest with
      | nil => simpa using h s (List.mem_cons_self s [])
      | cons s2 rest2 =>
          have h2 := ih (by simp) (fun x hx => h x (List.mem_cons_of_mem s hx))
          rw [List.flatten_cons]
          intro happ
          exact h2 (List.append_eq_nil.mp happ).2

/-- The last element of a flattened trajectory is the last element of
its last (nonempty) segment. -/
theorem flatten_getLast? {l : List (List V)} (h : ∀ s ∈ l, s ≠ []) :
    l.flatten.getLast? = l.getLast?.bind (fun s => s.getLast?) := by
  induction l with
  | nil => rfl
  | cons s rest ih =>
      cases rest with
      | nil => simp
      | cons s2 rest2 =>
          rw [List.flatten_cons,
            List.getLast?_append_of_ne_nil _ (flatten_ne_nil (by simp)
              (fun x hx => h x (List.mem_cons_of_mem s hx))),
            ih (fun x hx => h x (List.mem_cons_of_mem s hx)),
            List.getLast?_cons_cons]

theorem assocGet_set_self {α β : Type} [DecidableEq α] (d : List (α × β))
    (k : α) (x : β) : assocGet (assocSet d k x) k = some x := by
  simp [assocGet, assocSet, List.find?_cons]

theorem assocGet_set_ne {α β : Type} [DecidableEq α] (d : List (α × β))
    {k k2 : α} (x : β) (h : k ≠ k2) :
    assocGet (assocSet d k x) k2 = assocGet d k2 := by
  simp only [assocGet, assocSet]
  rw [List.find?_cons_of_neg _ (by simp [h])]

theorem foldl_assocSet_preserve {cands : List (Candidate V)} :
    ∀ (d : InnerCands V) (k : V), (∀ c ∈ cands, c.viewpointId ≠ k) →
      assocGet (cands.foldl
        (fun d cand => assocSet d cand.viewpointId cand.pointId) d) k =
      assocGet d k := by
  induction cands with
  | nil => intro d k _; rfl
  | cons c0 rest ih =>
      intro d k hk
      rw [List.foldl_cons,
        ih _ k (fun c hc => hk c (List.mem_cons_of_mem c0 hc)),
        assocGet_set_ne _ _ (hk c0 (List.mem_cons_self c0 rest))]

theorem foldl_assocSet_lookup {cands : List (Candidate V)} :
    ∀ (d : InnerCands V) (cand : Candidate V),
      (cands.map (fun c => c.viewpointId)).Nodup → cand ∈ cands →
      assocGet (cands.foldl
        (fun d c => assocSet d c.viewpointId c.pointId) d)
        cand.viewpointId = some cand.pointId := by
  induction cands with
  | nil => intro d cand _ h; cases h
  | cons c0 rest ih =>
      intro d cand hnd hmem
      rw [List.map_cons] at hnd
      rw [List.foldl_cons]
      rcases List.mem_cons.mp hmem with heq | h
      · subst heq
        have hnotin := (List.nodup_cons.mp hnd).1
        have hne : ∀ c ∈ rest, c.viewpointId ≠ cand.viewpointId := by
          intro c hc hcv
          refine hnotin ?_
          rw [← hcv]
          exact List.mem_map_of_mem _ hc
        rw [foldl_assocSet_preserve _ _ hne, assocGet_set_self]
      · exact ih _ cand (List.nodup_cons.mp hnd).2 h

/-- The lazy fill of the `scanvp_cands` cache: after folding in an
observation, the direction index of each of its candidates can be
looked up under the observation's (scan, viewpoint). -/
theorem cacheLookup_update {S : Type} [DecidableEq S]
    (c : ScanvpCands S V) (ob : CacheOb S V) (cand : Candidate V)
    (hnd : (ob.candidate.map (fun cc => cc.viewpointId)).Nodup)
    (hmem : cand ∈ ob.candidate) :
    cacheLookup (updateScanvpCands c ob) ob.scan ob.viewpoint
      cand.viewpointId = some cand.pointId := by
  simp only [cacheLookup, updateScanvpCands, assocGet_set_self,
    Option.some_bind]
  exact foldl_assocSet_lookup _ cand hnd hmem

/-- C9 (confirmed): for a non-stop hop, `make_equiv_action` appends
the multi-hop expansion to the trajectory and emits the pose
`(viewidx % 12 * 30°, (viewidx / 12 - 1) * 30°)` where `viewidx` is
the cached 36-direction index of the edge actually taken — the pair
(second-to-last waypoint of the updated flattened trajectory, chosen
target) — read from the per-(scan, viewpoint) cache; and the cache is
filled lazily from each observation's candidate list. -/
theorem c9_pose_from_cached_direction {S : Type} [DecidableEq S]
    (c : ScanvpCands S V) (gmapPath : V → V → List V) (scan : S)
    (curVp tgt : V) (traj : List (List V))
    (hseg : gmapPath curVp tgt ≠ []) (htraj : traj ≠ [])
    (hsegs : ∀ s ∈ traj, s ≠ []) :
    makeEquivAction c gmapPath scan curVp (some tgt) traj =
      (((traj ++ [gmapPath curVp tgt]).flatten.dropLast.getLast?).bind
        (fun prevVp => cacheLookup c scan prevVp tgt)).map
        (fun viewidx => (traj ++ [gmapPath curVp tgt],
          some (tgt, { heading := viewidx % 12 * 30,
                       elevation := ((viewidx : Int) / 12 - 1) * 30 }))) ∧
    (∀ (c0 : ScanvpCands S V) (ob : CacheOb S V) (cand : Candidate V),
      (ob.candidate.map (fun cc => cc.viewpointId)).Nodup →
      cand ∈ ob.candidate →
      cacheLookup (updateScanvpCands c0 ob) ob.scan ob.viewpoint
        cand.viewpointId = some cand.pointId) := by
  refine ⟨?_, fun c0 ob cand hnd hmem => cacheLookup_update c0 ob cand hnd hmem⟩
  have hpenult :
      prevVpOf traj (gmapPath curVp tgt) =
      (traj ++ [gmapPath curVp tgt]).flatten.dropLast.getLast? := by
    rw [prevVpOf, List.flatten_append]
    simp only [List.flatten_cons, List.flatten_nil, List.append_nil]
    by_cases h1 : (gmapPath curVp tgt).length = 1
    · rw [if_pos h1]
      obtain ⟨v, hv⟩ := List.length_eq_one.mp h1
      rw [hv, List.dropLast_concat]
      exact (flatten_getLast? hsegs).symm
    · rw [if_neg h1]
      have hdl : (gmapPath curVp tgt).dropLast ≠ [] := by
        have hp := List.length_pos.mpr hseg
        refine List.length_pos.mp ?_
        rw [List.length_dropLast]
        omega
      rw [List.dropLast_append_of_ne_nil _ hseg,
        List.getLast?_append_of_ne_nil _ hdl]
  simp only [makeEquivAction, Option.bind_eq_bind]
  rw [hpenult]
  cases hx : (traj ++ [gmapPath curVp tgt]).flatten.dropLast.getLast? with
  | none => rfl
  | some prevVp =>
      rw [Option.some_bind, Option.some_bind]
      cases hy : cacheLookup c scan prevVp tgt with
      | none => rfl
      | some viewidx => rfl

/-- The multi-hop expansion oracle of the concrete hop: the
incremental map routes 1 → 2 through 8. -/
def exPathFn : Nat → Nat → List Nat := fun a b => [a, 8, b]

/-- A cache holding direction index 25 for the edge (8, 2) in scan 0. -/
def exCache : ScanvpCands Nat Nat := [((0, 8), [(2, 25)])]

/-- C9 witness: the theorem applied to the concrete hop 1 → 2 through
8 with trajectory [[1]]. -/
theorem c9_pose_from_cached_direction_witness :
    makeEquivAction exCache exPathFn 0 1 (some 2) [[1]] =
      ((([[1], [1, 8, 2]] : List (List Nat)).flatten.dropLast.getLast?).bind
        (fun prevVp => cacheLookup exCache 0 prevVp 2)).map
        (fun viewidx => ([[1], [1, 8, 2]],
          some (2, { heading := viewidx % 12 * 30,
                     elevation := ((viewidx : Int) / 12 - 1) * 30 }))) :=
  (c9_pose_from_cached_direction exCache exPathFn 0 1 2 [[1]]
    (by decide) (by decide) (by decide)).1

/-! ### Claim about surrogate masking -/

theorem maskedFill_getD_of_mask_false {mask : List Bool} :
    ∀ {logits : List (WithBot ℚ)} {j : Nat}, mask.getD j false = false →
      (maskedFillNegInf mask logits).getD j ⊥ = ⊥ := by
  induction mask with
  | nil => intro logits j _; simp [maskedFillNegInf]
  | cons m ms ih =>
      intro logits j h
      cases logits with
      | nil => simp [maskedFillNegInf]
      | cons l ls =>
          cases j with
          | zero =>
              simp only [List.getD_cons_zero] at h
              simp [maskedFillNegInf, h]
          | succ j2 =>
              simp only [List.getD_cons_succ] at h
              simpa [maskedFillNegInf] using @ih ls j2 h

theorem maskedFill_getD_zero {mask : List Bool} {logits : List (WithBot ℚ)}
    (hm : mask.getD 0 false = true) (hmask : mask ≠ []) (hl : logits ≠ []) :
    (maskedFillNegInf mask logits).getD 0 ⊥ = logits.getD 0 ⊥ := by
  cases mask with
  | nil => exact absurd rfl hmask
  | cons m ms =>
      cases logits with
      | nil => exact absurd rfl hl
      | cons l ls =>
          simp only [List.getD_cons_zero] at hm
          simp [maskedFillNegInf, hm]

theorem argmaxIdx_ge_head (l : List (WithBot ℚ)) :
    l.getD 0 ⊥ ≤ l.getD (argmaxIdx l) ⊥ := by
  rw [argmaxIdx]
  have hinv : ∀ (js : List Nat) (best : Nat),
      l.getD 0 ⊥ ≤ l.getD best ⊥ →
      l.getD 0 ⊥ ≤ l.getD (js.foldl
        (fun best j => if l.getD best ⊥ < l.getD j ⊥ then j else best) best) ⊥ := by
    intro js
    induction js with
    | nil => intro best h; exact h
    | cons j rest ih =>
        intro best h
        rw [List.foldl_cons]
        by_cases hlt : l.getD best ⊥ < l.getD j ⊥
        · rw [if_pos hlt]
          exact ih j (le_of_lt (lt_of_le_of_lt h hlt))
        · rw [if_neg hlt]
          exact ih best h
  exact hinv _ 0 (le_refl _)

/-- Every surrogate index found by `gmap_vpids.index` is positive: the
stop entry `None` at index 0 never matches a seen viewpoint. -/
theorem seenIds_pos {n : GmapNodes V} {j : Nat} (h : j ∈ seenIds n) :
    1 ≤ j := by
  rw [seenIds, List.mem_map] at h
  obtain ⟨x, _, hx⟩ := h
  rw [gmapVpids, List.findIdx_cons] at hx
  have hfalse : ((none : Option V) == some x) = false := by
    simp
  rw [hfalse] at hx
  simp only [cond_false] at hx
  omega

theorem seenMask_length {n : GmapNodes V} :
    (seenMask n).length = (gmapVpids n).length := by
  simp [seenMask]

theorem seenMask_getD_of_mem {n : GmapNodes V} {j : Nat}
    (h : j ∈ seenIds n) : (seenMask n).getD j false = false := by
  by_cases hj : j < (gmapVpids n).length
  · have hr : j < (List.range (gmapVpids n).length).length := by
      simpa using hj
    rw [seenMask, List.getD_eq_getElem?_getD, List.getElem?_map,
      List.getElem?_range hj]
    simp [h]
  · rw [List.getD_eq_default]
    rw [seenMask_length]
    omega

theorem seenMask_getD_zero {n : GmapNodes V} :
    (seenMask n).getD 0 false = true := by
  have h0 : 0 < (gmapVpids n).length := by
    rw [gmapVpids]
    simp
  rw [seenMask, List.getD_eq_getElem?_getD, List.getElem?_map,
    List.getElem?_range h0]
  have : 0 ∉ seenIds n := fun hmem => by
    have := seenIds_pos hmem
    omega
  simp [this]

/-- C10 (confirmed): in the search fallback, the logits of surrogate
"seen" nodes (unvisited nodes at sentinel distance from the current
viewpoint) are unconditionally set to −∞ before the softmax; hence the
argmax rule never selects a surrogate index, a categorical sample has
zero probability there, and the search teacher only ever returns stop,
the ignore marker, or a candidate strictly below the sentinel.  The
outer rollout applies this mask exactly when search-target mode is
disabled. -/
theorem c10_search_masks_surrogates (n : GmapNodes V) (logits : List ℚ)
    (ignoreid : Int) (gmapDist : Option V → ℚ) (sd : V → V → ℚ)
    (ob : Ob V) (target : V) (visitedMasks : Option (List Bool)) (t : Nat)
    (hlen : logits.length = (gmapVpids n).length) :
    (∀ j ∈ seenIds n,
      (searchNavLogits (seenMask n)
        (logits.map (fun q => (q : WithBot ℚ)))).getD j ⊥ = ⊥) ∧
    argmaxIdx (searchNavLogits (seenMask n)
        (logits.map (fun q => (q : WithBot ℚ)))) ∉ seenIds n ∧
    (∀ j ∈ seenIds n, ¬ softmaxSupport (searchNavLogits (seenMask n)
        (logits.map (fun q => (q : WithBot ℚ)))) j) ∧
    (∀ a, teacherActionR4rSearch ignoreid gmapDist sd ob (gmapVpids n) false
        target visitedMasks false t = some a →
      a = ignoreid ∨ a = 0 ∨ ∃ (j : Nat) (vpid : Option V),
        (gmapVpids n)[j]? = some vpid ∧ a = (j : Int) ∧
        gmapDist vpid < sentinel) ∧
    (rolloutNavLogits true (seenMask n)
        (logits.map (fun q => (q : WithBot ℚ))) =
      logits.map (fun q => (q : WithBot ℚ)) ∧
     rolloutNavLogits false (seenMask n)
        (logits.map (fun q => (q : WithBot ℚ))) =
      searchNavLogits (seenMask n) (logits.map (fun q => (q : WithBot ℚ)))) := by
  have hbot : ∀ j ∈ seenIds n,
      (searchNavLogits (seenMask n)
        (logits.map (fun q => (q : WithBot ℚ)))).getD j ⊥ = ⊥ := by
    intro j hj
    exact maskedFill_getD_of_mask_false (seenMask_getD_of_mem hj)
  refine ⟨hbot, ?_, fun j hj hsupp => hsupp (hbot j hj), ?_, rfl, rfl⟩
  · intro hmem
    have hlpos : logits ≠ [] := by
      intro hnil
      rw [hnil] at hlen
      rw [gmapVpids] at hlen
      simp at hlen
    obtain ⟨q, qs, hq⟩ := List.exists_cons_of_ne_nil hlpos
    have hml0 : (searchNavLogits (seenMask n)
        (logits.map (fun x => (x : WithBot ℚ)))).getD 0 ⊥ = (q : WithBot ℚ) := by
      rw [searchNavLogits, maskedFill_getD_zero seenMask_getD_zero ?hm ?hl]
      · rw [hq]
        rfl
      case hm =>
        intro hnil
        have := @seenMask_length V _ n
        rw [hnil] at this
        rw [gmapVpids] at this
        simp at this
      case hl =>
        rw [hq]
        simp
    have hge := argmaxIdx_ge_head (searchNavLogits (seenMask n)
      (logits.map (fun x => (x : WithBot ℚ))))
    rw [hml0, hbot _ hmem] at hge
    exact absurd (le_bot_iff.mp hge) (WithBot.coe_ne_bot)
  · intro a h
    rw [teacherActionR4rSearch] at h
    simp only [Bool.false_eq_true, if_false] at h
    by_cases heq : ob.viewpoint = target
    · rw [if_pos heq] at h
      cases h
      exact Or.inr (Or.inl rfl)
    · rw [if_neg heq] at h
      rcases selectMinSkip_result h with h1 | ⟨i, vpid, hget, ha, hd⟩
      · exact Or.inl h1
      · exact Or.inr (Or.inr ⟨i, vpid, hget, by rw [ha]; simp, hd⟩)

/-- The node state of the concrete masking episode: node 7 visited,
node 9 unvisited at the sentinel distance — a surrogate. -/
def exNodes : GmapNodes Nat :=
  { keys := [7, 9], visited := fun v => v == 7,
    distFromCur := fun v => if v == 9 then sentinel else 1 }

/-- C10 witness: on the concrete episode, the argmax over the masked
logits avoids the surrogate's index. -/
theorem c10_search_masks_surrogates_witness :
    argmaxIdx (searchNavLogits (seenMask exNodes)
      (([1, 5, 9] : List ℚ).map (fun q => (q : WithBot ℚ)))) ∉ seenIds exNodes :=
  (c10_search_masks_surrogates exNodes [1, 5, 9] (-100) exSentDist exSd
    exObA 9 none 0 (by decide)).2.1

end Agent

end DynamicVLN
